import Mathlib

/-!
Shallow embedding of `src/include/vthreads.h` (virtual threads for AVR,
protothreads-style, implemented with labels-as-values and computed goto).

A thread procedure has the fixed shape produced by the macros:

  void thread_fn(void) {
    VT_BEGIN(thread, ip);      -- do { char vt_flag = 1; goto *ip; for (;;) { BEGIN:
      <body statements>        --   acts, VT_YIELD, VT_MARK, VT_SEEK
    VT_END(thread);            -- } STOP: (void)vt_flag; } while(0)
    <epilogue statements>      -- plain code after VT_END
  }

The continuation (`vthread_ip_t ip`, stored by the caller) holds the address
of one of the labels of this procedure: the BEGIN asm label (written by
VT_INIT/VT_RESTART), the C label inside one of the yields (written by the
yield when it suspends), a mark asm label or the STOP asm label (written by
VT_SEEK).  We model that closed address space as the inductive type `Cont`,
label positions being indices into the body statement list.

Control flow facts taken from the source and mirrored by the model:
  * `VT_BEGIN` declares `char vt_flag = 1;` and then `goto *ip` (FC_RESUME),
    so dispatch happens before any body statement runs.
  * `VT_YIELD` expands to `vt_flag = 0; FC_LABEL_n: if (vt_flag == 0)
    { ip = &&FC_LABEL_n; return; }`.  Reached sequentially it always
    suspends (flag just set to 0); reached by dispatch the freshly
    initialized flag is 1, so the guard falls through to the next statement.
    The `return` leaves the whole procedure at once, skipping the epilogue.
  * `VT_END` closes the `for (;;)` loop opened by `VT_BEGIN`: running past
    the last body statement wraps around to the top of the body.  The STOP
    label sits after the loop; it is reachable only by dispatch, and from it
    control falls out of the macro region into the epilogue.
  * `VT_SEEK` is a plain assignment `ip = FC_POINTER(label)`: no jump, no
    return.  A label name resolves to the BEGIN label, the STOP label or a
    mark label; an unknown name is an assembler error (modelled as `none`).
-/

namespace VThreads

/-- Names a seek can target: the macro builds the asm label
`thread__BEGIN`, `thread__STOP` or `thread__<mark>`; user marks are
numbered here instead of C identifiers. -/
inductive LabelName where
  | begin
  | stop
  | mark (n : Nat)
deriving DecidableEq, Repr

/-- One statement of a thread body between `VT_BEGIN` and `VT_END`:
an observable action (ordinary user code), a `VT_MARK`, an in-body
`VT_SEEK`, or a `VT_YIELD`. -/
inductive Stmt (α : Type) where
  | act (a : α)
  | mark (n : Nat)
  | seekTo (l : LabelName)
  | yield
deriving DecidableEq, Repr

/-- The continuation value (`vthread_ip_t`): address of the BEGIN label,
of the resume label inside the yield at body position `i`, of the mark
label at body position `i`, or of the STOP label. -/
inductive Cont where
  | begin
  | yieldAt (i : Nat)
  | markAt (i : Nat)
  | stop
deriving DecidableEq, Repr

/-- A virtual thread procedure: the statements between `VT_BEGIN` and
`VT_END`, plus the epilogue placed after `VT_END` (before the closing
brace of the C function). -/
structure VThread (α : Type) where
  body : List (Stmt α)
  epi : List α
deriving DecidableEq, Repr

/-- Position of the first `VT_MARK` carrying name `n` (the asm label a
seek resolves to).  Duplicate marks would be duplicate asm labels, an
assembler error, so taking the first is faithful for well-formed bodies. -/
def markIdx? : List (Stmt α) → Nat → Option Nat
  | [], _ => none
  | .mark m :: rest, n => if m = n then some 0 else (markIdx? rest n).map (· + 1)
  | .act _ :: rest, n => (markIdx? rest n).map (· + 1)
  | .seekTo _ :: rest, n => (markIdx? rest n).map (· + 1)
  | .yield :: rest, n => (markIdx? rest n).map (· + 1)

/-- FC_POINTER(FC_ASM_LABEL_NAME(thread, mark)): resolve a label name to
the continuation value for this body.  `none` models the assembler
rejecting a reference to an undeclared label. -/
def resolveLabel (B : List (Stmt α)) : LabelName → Option Cont
  | .begin => some .begin
  | .stop => some .stop
  | .mark n => (markIdx? B n).map .markAt

/-- How a sequential run of a statement suffix ended: suspended at the
yield at absolute position `i` (the yield stored its label and returned),
or fell off the end of the suffix with `ip` the current continuation
value (the `for` loop will wrap around). -/
inductive SegResult where
  | suspended (i : Nat)
  | fellOff (ip : Cont)
deriving DecidableEq, Repr

/-- Run statements sequentially: `l` is the remaining statement suffix,
`i` the absolute body position of its head, `ip` the current value of the
continuation variable, `r` resolves seek label names.  Returns the trace
of actions executed and how the run ended; `none` means the program was
rejected at build time (seek to an undeclared label). -/
def seqRun (r : LabelName → Option Cont) : List (Stmt α) → Nat → Cont → Option (List α × SegResult)
  | [], _, ip => some ([], .fellOff ip)
  | .act a :: rest, i, ip => (seqRun r rest (i + 1) ip).map (fun p => (a :: p.1, p.2))
  | .mark _ :: rest, i, ip => seqRun r rest (i + 1) ip
  | .seekTo l :: rest, i, ip =>
      match r l with
      | none => none
      | some ip2 => seqRun r rest (i + 1) ip2
  | .yield :: rest, i, ip =>
      -- VT_YIELD reached sequentially: `vt_flag = 0;` then the guard.
      let vt_flag := false
      if vt_flag = false then some ([], .suspended i)
      else seqRun r rest (i + 1) ip

/-- Execution of the dispatch region from body position `p` with entry
continuation value `ip0`: run the suffix; falling off the end of the body
wraps around to the top of the `for (;;)` loop (the BEGIN label).  If the
wrapped pass also finds no yield, the invocation never returns (`none`:
the loop spins forever, matching a body with no yield point). -/
def bodyRun (B : List (Stmt α)) (p : Nat) (ip0 : Cont) : Option (List α × Cont) :=
  match seqRun (resolveLabel B) (B.drop p) p ip0 with
  | none => none
  | some (tr, .suspended i) => some (tr, .yieldAt i)
  | some (tr, .fellOff ip1) =>
      match seqRun (resolveLabel B) B 0 ip1 with
      | none => none
      | some (tr2, .suspended i) => some (tr ++ tr2, .yieldAt i)
      | some (_, .fellOff _) => none

/-- The value of `vt_flag` at dispatch time: `VT_BEGIN` initializes
`char vt_flag = 1;` immediately before `FC_RESUME(ip)`. -/
def vtEntryFlag : Bool := true

/-- Dispatch that lands on the resume label inside the yield at position
`i` re-checks that yield's guard `if (vt_flag == 0) { ip = ...; return; }`
with the entry value of the flag: flag 0 would suspend on the spot, flag 1
falls through to the statement after the yield. -/
def yieldGuardDispatch (B : List (Stmt α)) (i : Nat) (flag : Bool) : Option (List α × Cont) :=
  if flag = false then some ([], Cont.yieldAt i)
  else bodyRun B (i + 1) (Cont.yieldAt i)

/-- One invocation of the thread procedure with entry continuation `c`:
set `vt_flag = 1`, `goto *ip`.  STOP dispatch lands after the `for` loop,
runs only the epilogue and leaves the continuation untouched; BEGIN
dispatch starts the body at position 0; mark dispatch starts at the mark;
yield dispatch enters that yield's guard.  Result: trace of executed
actions and the continuation value left for the caller. -/
def invoke (t : VThread α) (c : Cont) : Option (List α × Cont) :=
  match c with
  | .stop => some (t.epi, .stop)
  | .begin => bodyRun t.body 0 .begin
  | .markAt i => bodyRun t.body i (.markAt i)
  | .yieldAt i => yieldGuardDispatch t.body i vtEntryFlag

/-- VT_INIT: `ip = FC_POINTER(thread__BEGIN)`. -/
def vtInit : Cont := .begin

/-- VT_RESTART is defined as VT_INIT. -/
def vtRestart : Cont := vtInit

/-- VT_SEEK performed on a stored continuation: a plain overwrite
`ip = FC_POINTER(thread__mark)`; the previous value `ip` is discarded
unconditionally and nothing else happens. -/
def vtSeek (t : VThread α) (ip : Cont) (l : LabelName) : Option Cont :=
  resolveLabel t.body l

/-- Sequence of `n` invocations: the list of per-invocation traces and
the final continuation.  `none` if some invocation never returns. -/
def runs (t : VThread α) : Cont → Nat → Option (List (List α) × Cont)
  | c, 0 => some ([], c)
  | c, n + 1 =>
      match invoke t c with
      | none => none
      | some (tr, c2) =>
          match runs t c2 n with
          | none => none
          | some (trs, c3) => some (tr :: trs, c3)

/-- The actions contained in a statement list, in order. -/
def actsOf (l : List (Stmt α)) : List α :=
  l.filterMap (fun s => match s with | .act a => some a | _ => none)

/-- The dispatch target position encoded by a continuation: BEGIN is the
top of the body, the resume label of the yield at `i` continues after it,
a mark label sits at the mark itself. -/
def startPos : Cont → Nat
  | .begin => 0
  | .yieldAt i => i + 1
  | .markAt i => i
  | .stop => 0

/-- A body made of plain segments separated by single yields:
`segs = [s0, s1, ..., sN]` gives `s0 ; yield ; s1 ; yield ; ... ; sN`
(N yield points, N+1 segments). -/
def simpleBody : List (List α) → List (Stmt α)
  | [] => []
  | [s] => s.map .act
  | s :: rest => s.map .act ++ .yield :: simpleBody rest

/-- Traces of the invocations that consume segments `rest` one per
invocation, the last one wrapping around and re-executing the leading
segment `s` up to the first yield. -/
def wrapTraces (s : List α) : List (List α) → List (List α)
  | [] => []
  | [t] => [t ++ s]
  | t :: rest => t :: wrapTraces s rest

/-- The resumption tag a yield at body position `i` stores
(`ip = &&FC_LABEL_n`): positions play the role of the per-call-site
`__LINE__`-generated label names. -/
def yieldTag (i : Nat) : Cont := .yieldAt i

/-- The continuation values that are addresses of labels actually placed
in this body: BEGIN, STOP, resume labels of real yields, asm labels of
real marks. -/
def ContValid (B : List (Stmt α)) : Cont → Prop
  | .begin => True
  | .stop => True
  | .yieldAt i => B[i]? = some .yield
  | .markAt i => ∃ n, B[i]? = some (.mark n)

/-- Concrete thread `A; yield; B; yield; C` (two yield points, three
segments, actions 0, 1, 2, empty epilogue). -/
def exRound : VThread Nat := ⟨simpleBody [[0], [1], [2]], []⟩

/-- Concrete thread whose body starts with a seek to the STOP label, then
runs action 0 and yields. -/
def exSeekStop : VThread Nat := ⟨[.seekTo .stop, .act 0, .yield], []⟩

/-- Concrete thread `act 0; yield` with epilogue action 9 after VT_END. -/
def exEpilogue : VThread Nat := ⟨[.act 0, .yield], [9]⟩

/-- Concrete thread `act 0; yield; act 1`: a yield with body code before
it and no further yield after it. -/
def exResume : VThread Nat := ⟨[.act 0, .yield, .act 1], []⟩

/-- Concrete thread `act 7; yield; act 8`, same shape as `exResume` with
different actions, used for the dispatch claim. -/
def exDispatch : VThread Nat := ⟨[.act 7, .yield, .act 8], []⟩

/-- Concrete thread `act 5; yield; mark 0; act 6`: a mark after the last
yield point. -/
def exMark : VThread Nat := ⟨[.act 5, .yield, .mark 0, .act 6], []⟩

end VThreads

namespace VThreads

section Lemmas

variable {α : Type}

theorem seqRun_nil (r : LabelName → Option Cont) (i : Nat) (ip : Cont) :
    seqRun (α := α) r [] i ip = some ([], .fellOff ip) := rfl

theorem seqRun_yield_cons (r : LabelName → Option Cont) (l : List (Stmt α)) (i : Nat) (ip : Cont) :
    seqRun r (.yield :: l) i ip = some ([], .suspended i) := rfl

theorem seqRun_mark_cons (r : LabelName → Option Cont) (m : Nat) (l : List (Stmt α)) (i : Nat)
    (ip : Cont) : seqRun r (.mark m :: l) i ip = seqRun r l (i + 1) ip := rfl

theorem seqRun_acts (r : LabelName → Option Cont) (s : List α) (l : List (Stmt α)) (i : Nat)
    (ip : Cont) :
    seqRun r (s.map Stmt.act ++ l) i ip
      = (seqRun r l (i + s.length) ip).map (fun p => (s ++ p.1, p.2)) := by
  induction s generalizing i with
  | nil =>
      simp only [List.map_nil, List.nil_append, List.length_nil, Nat.add_zero]
      cases seqRun r l i ip <;> simp
  | cons a s ih =>
      have e1 : seqRun r ((a :: s).map Stmt.act ++ l) i ip
          = (seqRun r (s.map Stmt.act ++ l) (i + 1) ip).map (fun p => (a :: p.1, p.2)) := rfl
      have e2 : i + 1 + s.length = i + (a :: s).length := by
        simp only [List.length_cons]; omega
      rw [e1, ih, e2]
      cases seqRun r l (i + (a :: s).length) ip <;> simp

theorem drop_append_cons_self (pre post : List β) (x : β) :
    (pre ++ x :: post).drop (pre.length + 1) = post := by
  have h : pre ++ x :: post = (pre ++ [x]) ++ post := by simp
  have hl : (pre ++ [x]).length = pre.length + 1 := by simp
  rw [h, ← hl, List.drop_left]

theorem drop_append_self (pre post : List β) :
    (pre ++ post).drop pre.length = post := List.drop_left pre post

/-- A sequential run that suspended did so at a genuine yield statement,
and its trace is exactly the actions strictly between the start of the
suffix and that yield: nothing before the suffix, nothing after the
yield. -/
theorem seqRun_suspend_spec (r : LabelName → Option Cont) :
    ∀ {l : List (Stmt α)} {i : Nat} {ip : Cont} {tr : List α} {j : Nat},
      seqRun r l i ip = some (tr, .suspended j) →
      ∃ k, j = i + k ∧ l[k]? = some Stmt.yield ∧ tr = actsOf (l.take k) := by
  intro l
  induction l with
  | nil =>
      intro i ip tr j h
      simp [seqRun] at h
  | cons hd rest ih =>
      intro i ip tr j h
      cases hd with
      | act a =>
          simp only [seqRun, Option.map_eq_some'] at h
          obtain ⟨p, hp, heq⟩ := h
          have h1 : a :: p.1 = tr := congrArg Prod.fst heq
          have h2 : p.2 = SegResult.suspended j := congrArg Prod.snd heq
          have hp2 : seqRun r rest (i + 1) ip = some (p.1, SegResult.suspended j) := by
            rw [← h2, hp]
          obtain ⟨k, hk, hy, htr⟩ := ih hp2
          refine ⟨k + 1, by omega, by simpa using hy, ?_⟩
          rw [← h1]
          simp [actsOf, htr]
      | mark m =>
          have h2 : seqRun r rest (i + 1) ip = some (tr, .suspended j) := h
          obtain ⟨k, hk, hy, htr⟩ := ih h2
          refine ⟨k + 1, by omega, by simpa using hy, ?_⟩
          simp [actsOf, htr]
      | seekTo lb =>
          simp only [seqRun] at h
          cases hr : r lb with
          | none => rw [hr] at h; exact absurd h (by simp)
          | some ip2 =>
              rw [hr] at h
              obtain ⟨k, hk, hy, htr⟩ := ih h
              refine ⟨k + 1, by omega, by simpa using hy, ?_⟩
              simp [actsOf, htr]
      | yield =>
          rw [seqRun_yield_cons] at h
          simp only [Option.some.injEq, Prod.mk.injEq, SegResult.suspended.injEq] at h
          obtain ⟨h1, h2⟩ := h
          exact ⟨0, by omega, by simp, by simp [actsOf, ← h1]⟩

end Lemmas

end VThreads

namespace VThreads

section StructureLemmas

variable {α : Type}

theorem simpleBody_cons (s : List α) (rest : List (List α)) (h : rest ≠ []) :
    simpleBody (s :: rest) = s.map Stmt.act ++ .yield :: simpleBody rest := by
  cases rest with
  | nil => exact absurd rfl h
  | cons t ts => rfl

theorem seqRun_simpleBody_wrap (r : LabelName → Option Cont) (s : List α)
    (rest : List (List α)) (h : rest ≠ []) (ip : Cont) :
    seqRun r (simpleBody (s :: rest)) 0 ip = some (s, SegResult.suspended s.length) := by
  rw [simpleBody_cons s rest h, seqRun_acts, seqRun_yield_cons]
  simp

theorem markIdx?_spec : ∀ {B : List (Stmt α)} {n i : Nat},
    markIdx? B n = some i → B[i]? = some (Stmt.mark n) := by
  intro B
  induction B with
  | nil => intro n i h; simp [markIdx?] at h
  | cons hd rest ih =>
      intro n i h
      cases hd with
      | mark m =>
          by_cases hm : m = n
          · rw [markIdx?, if_pos hm] at h
            obtain rfl : 0 = i := Option.some.injEq _ _ ▸ h
            simp [hm]
          · rw [markIdx?, if_neg hm] at h
            simp only [Option.map_eq_some'] at h
            obtain ⟨k, hk, rfl⟩ := h
            simpa using ih hk
      | act a =>
          rw [markIdx?] at h
          simp only [Option.map_eq_some'] at h
          obtain ⟨k, hk, rfl⟩ := h
          simpa using ih hk
      | seekTo lb =>
          rw [markIdx?] at h
          simp only [Option.map_eq_some'] at h
          obtain ⟨k, hk, rfl⟩ := h
          simpa using ih hk
      | yield =>
          rw [markIdx?] at h
          simp only [Option.map_eq_some'] at h
          obtain ⟨k, hk, rfl⟩ := h
          simpa using ih hk

/-- Whatever position an invocation dispatches to and whatever the body
contains, a normally returning body run hands the caller the tag of a
genuine yield site of this body. -/
theorem bodyRun_yield_site {B : List (Stmt α)} {p : Nat} {ip0 : Cont} {tr : List α} {c : Cont}
    (h : bodyRun B p ip0 = some (tr, c)) :
    ∃ j, c = Cont.yieldAt j ∧ B[j]? = some Stmt.yield := by
  unfold bodyRun at h
  split at h
  · exact Option.noConfusion h
  case h_2 tr1 i h1 =>
      simp only [Option.some.injEq, Prod.mk.injEq] at h
      obtain ⟨k, hk, hy, _⟩ := seqRun_suspend_spec (resolveLabel B) h1
      refine ⟨i, h.2.symm, ?_⟩
      rw [List.getElem?_drop] at hy
      rw [hk]
      exact hy
  case h_3 tr1 ip1 h1 =>
      split at h
      · exact Option.noConfusion h
      case h_2 tr2 i h2 =>
          simp only [Option.some.injEq, Prod.mk.injEq] at h
          obtain ⟨k, hk, hy, _⟩ := seqRun_suspend_spec (resolveLabel B) h2
          refine ⟨i, h.2.symm, ?_⟩
          simp only [Nat.zero_add] at hk
          rw [hk]
          simpa using hy
      case h_3 tr2 ip2 h2 => exact Option.noConfusion h

/-- Walking the tail of a simple body: starting suspended at the yield
that precedes the segments `rest`, `rest.length` further invocations
consume one segment each; the last one falls off the end of the body,
wraps around to the top of the `for (;;)` loop and re-runs the leading
segment `s` up to the body's first yield. -/
theorem runs_simple_from_yield (s e : List α) (B : List (Stmt α))
    (hwrap : ∀ ip, seqRun (resolveLabel B) B 0 ip = some (s, SegResult.suspended s.length)) :
    ∀ (rest : List (List α)) (p : Nat), rest ≠ [] → B.drop (p + 1) = simpleBody rest →
      runs ⟨B, e⟩ (Cont.yieldAt p) rest.length
        = some (wrapTraces s rest, Cont.yieldAt s.length) := by
  intro rest
  induction rest with
  | nil => intro p hne _; exact absurd rfl hne
  | cons t rest2 ih =>
      intro p _ hdrop
      cases rest2 with
      | nil =>
          have hseg : seqRun (resolveLabel B) (B.drop (p + 1)) (p + 1) (Cont.yieldAt p)
              = some (t, SegResult.fellOff (Cont.yieldAt p)) := by
            rw [hdrop]
            have hsb : simpleBody [t] = t.map Stmt.act ++ ([] : List (Stmt α)) := by
              simp [simpleBody]
            rw [hsb, seqRun_acts, seqRun_nil]
            simp
          have hinv : invoke ⟨B, e⟩ (Cont.yieldAt p) = some (t ++ s, Cont.yieldAt s.length) := by
            simp [invoke, yieldGuardDispatch, vtEntryFlag, bodyRun, hseg, hwrap]
          simp [runs, hinv, wrapTraces]
      | cons t2 ts =>
          have hne2 : (t2 :: ts : List (List α)) ≠ [] := by simp
          have hsb : simpleBody (t :: t2 :: ts)
              = t.map Stmt.act ++ .yield :: simpleBody (t2 :: ts) :=
            simpleBody_cons t (t2 :: ts) hne2
          have hseg : seqRun (resolveLabel B) (B.drop (p + 1)) (p + 1) (Cont.yieldAt p)
              = some (t, SegResult.suspended (p + 1 + t.length)) := by
            rw [hdrop, hsb, seqRun_acts, seqRun_yield_cons]
            simp
          have hinv : invoke ⟨B, e⟩ (Cont.yieldAt p)
              = some (t, Cont.yieldAt (p + 1 + t.length)) := by
            simp [invoke, yieldGuardDispatch, vtEntryFlag, bodyRun, hseg]
          have hdrop2 : B.drop (p + 1 + t.length + 1) = simpleBody (t2 :: ts) := by
            have h1 : B.drop (p + 1 + t.length + 1) = (B.drop (p + 1)).drop (t.length + 1) := by
              rw [List.drop_drop]
              congr 1
            rw [h1, hdrop, hsb]
            simpa using drop_append_cons_self (t.map (Stmt.act : α → Stmt α))
              (simpleBody (t2 :: ts)) Stmt.yield
          have hrec := ih (p + 1 + t.length) hne2 hdrop2
          have hstep : runs ⟨B, e⟩ (Cont.yieldAt p) ((t2 :: ts).length + 1)
              = some (t :: wrapTraces s (t2 :: ts), Cont.yieldAt s.length) := by
            rw [runs, hinv]
            dsimp only
            rw [hrec]
          simpa only [List.length_cons, wrapTraces] using hstep

end StructureLemmas

end VThreads

namespace VThreads

/-- An extra two-yield thread `act 3; yield; act 4; yield` used to
instantiate general theorems at a concrete input. -/
def exTwoYields : VThread Nat := ⟨[.act 3, .yield, .act 4, .yield], []⟩

/-- Claim C1 is false on this code: for the three-segment thread
`A; yield; B; yield; C` (N = 2 yield points), the third invocation does
not stop after segment C.  `VT_END` closes the `for (;;)` loop, so the
run wraps around to the top of the body, re-executes segment A and
suspends at the first yield again: the trace of invocation 3 is `[2, 0]`
and the final continuation is the first yield's tag, not STOPPED. -/
theorem c1_counterexample :
    runs exRound vtInit 3 = some ([[0], [1], [2, 0]], Cont.yieldAt 1)
      ∧ runs exRound vtInit 3 ≠ some ([[0], [1], [2]], Cont.stop) := by
  decide

/-- Claim C1, amended.  For a body with segments `s :: rest` separated by
single yields (so `rest.length` yield points), the `rest.length + 1`
sequential invocations from an initialized continuation execute the
segments in order, one per invocation; but the last invocation, after its
segment, wraps around to the start of the body and re-executes the
leading segment up to the first yield, and the final continuation is the
first yield's tag — the continuation never becomes STOPPED on its own
(the thread runs forever). -/
theorem c1_round_trip_amended (s : List α) (rest : List (List α)) (e : List α)
    (h : rest ≠ []) :
    runs ⟨simpleBody (s :: rest), e⟩ vtInit (rest.length + 1)
      = some (s :: wrapTraces s rest, Cont.yieldAt s.length) := by
  have hwrap : ∀ ip, seqRun (resolveLabel (simpleBody (s :: rest))) (simpleBody (s :: rest)) 0 ip
      = some (s, SegResult.suspended s.length) :=
    fun ip => seqRun_simpleBody_wrap _ s rest h ip
  have hinv : invoke ⟨simpleBody (s :: rest), e⟩ vtInit = some (s, Cont.yieldAt s.length) := by
    simp [invoke, vtInit, bodyRun, hwrap Cont.begin]
  have hdropB : (simpleBody (s :: rest)).drop (s.length + 1) = simpleBody rest := by
    rw [simpleBody_cons s rest h]
    simpa using drop_append_cons_self (s.map (Stmt.act : α → Stmt α)) (simpleBody rest)
      Stmt.yield
  have hrec := runs_simple_from_yield s e (simpleBody (s :: rest)) hwrap rest s.length h hdropB
  rw [runs]
  rw [show invoke ⟨simpleBody (s :: rest), e⟩ vtInit = some (s, Cont.yieldAt s.length) from hinv]
  dsimp only
  rw [hrec]

theorem c1_round_trip_amended_witness :
    ([[1]] : List (List Nat)) ≠ []
      ∧ runs (⟨simpleBody [[0], [1]], []⟩ : VThread Nat) vtInit (List.length [[1]] + 1)
        = some ([0] :: wrapTraces [0] [[1]], Cont.yieldAt (List.length [0])) :=
  ⟨by decide, c1_round_trip_amended [0] [[1]] [] (by decide)⟩

/-- Claim C2 is false on this code: the header has no stop macro; the
closest construct, an in-body `VT_SEEK` to the STOP label, overwrites the
continuation but does not return.  In the thread
`seek STOP; act 0; yield`, the first invocation runs past the seek,
executes action 0 and suspends at the yield, which overwrites the
continuation with its own tag: the result is `([0], yieldAt 2)`, not an
immediate return with the STOPPED token. -/
theorem c2_counterexample :
    invoke exSeekStop vtInit = some ([0], Cont.yieldAt 2)
      ∧ invoke exSeekStop vtInit ≠ some ([], Cont.stop) := by
  decide

/-- Claim C2, amended.  Stopping is expressed with seek, not a dedicated
operation: a seek targeting the STOP label writes the STOPPED token into
the continuation and does nothing else; an invocation dispatched from
STOPPED runs only the epilogue; and an in-body seek to STOP does not
return — execution continues with the following statements, only the
continuation variable having changed (so it is not structurally a
yield). -/
theorem c2_stop_amended (t : VThread α) (ip ip2 : Cont) (i : Nat) (rest : List (Stmt α)) :
    vtSeek t ip LabelName.stop = some Cont.stop
      ∧ invoke t Cont.stop = some (t.epi, Cont.stop)
      ∧ seqRun (resolveLabel t.body) (Stmt.seekTo LabelName.stop :: rest) i ip2
          = seqRun (resolveLabel t.body) rest (i + 1) Cont.stop :=
  ⟨rfl, rfl, rfl⟩

/-- Claim C3 is false on this code: the code after `VT_END` does not run
on an invocation that ends in a yield, because `VT_YIELD` suspends with
`return`, which leaves the whole procedure at once.  In the thread
`act 0; yield` with epilogue action 9, the first invocation's trace is
`[0]`: the epilogue action never appears. -/
theorem c3_counterexample :
    invoke exEpilogue vtInit = some ([0], Cont.yieldAt 1)
      ∧ (9 : Nat) ∉ ([0] : List Nat) := by
  decide

/-- Claim C3, amended.  The epilogue after `VT_END` runs exactly on the
invocations that dispatch to the STOP label (continuation = STOPPED): a
STOPPED dispatch returns precisely the epilogue trace, and on every other
entry continuation the invocation's outcome is independent of the
epilogue — the epilogue is never executed, because a yield returns out of
the procedure and the `for (;;)` loop never falls through to it. -/
theorem c3_epilogue_amended (B : List (Stmt α)) (e e1 e2 : List α) (c : Cont) :
    invoke ⟨B, e⟩ Cont.stop = some (e, Cont.stop)
      ∧ (c ≠ Cont.stop → invoke ⟨B, e1⟩ c = invoke ⟨B, e2⟩ c) := by
  refine ⟨rfl, fun hc => ?_⟩
  cases c with
  | stop => exact absurd rfl hc
  | begin => rfl
  | yieldAt i => rfl
  | markAt i => rfl

theorem c3_epilogue_amended_witness :
    Cont.begin ≠ Cont.stop
      ∧ invoke (⟨[Stmt.act 0, Stmt.yield], [5]⟩ : VThread Nat) Cont.begin
          = invoke (⟨[Stmt.act 0, Stmt.yield], [6]⟩ : VThread Nat) Cont.begin :=
  ⟨by decide, (c3_epilogue_amended [Stmt.act 0, Stmt.yield] [] [5] [6] Cont.begin).2 (by decide)⟩

/-- Claim C4 is false on this code as universally stated: in the thread
`act 0; yield; act 1`, invocation 1 executes that yield (storing its tag),
and invocation 2 resumes after it — but having no further yield it runs to
the end of the body, wraps around the `for (;;)` loop and re-executes
action 0, which lexically precedes the yield.  Its trace is `[1, 0]`. -/
theorem c4_counterexample :
    runs exResume vtInit 2 = some ([[0], [1, 0]], Cont.yieldAt 1)
      ∧ (0 : Nat) ∈ ([1, 0] : List Nat) := by
  decide

/-- Claim C4, amended.  The next invocation's dispatch does route directly
to the statement after the executed yield: whenever another yield point
follows, the resumed invocation executes exactly the actions `q` strictly
between the two yields — none of the code before the resumed yield — and
suspends at the following yield.  (Only when no yield follows does the
wrap-around of the body loop re-execute earlier code.) -/
theorem c4_resume_amended (pre : List (Stmt α)) (q : List α) (post : List (Stmt α))
    (e : List α) :
    invoke ⟨pre ++ Stmt.yield :: (q.map Stmt.act ++ Stmt.yield :: post), e⟩
        (Cont.yieldAt pre.length)
      = some (q, Cont.yieldAt (pre.length + 1 + q.length)) := by
  have hdrop : (pre ++ Stmt.yield :: (q.map Stmt.act ++ Stmt.yield :: post)).drop
      (pre.length + 1) = q.map Stmt.act ++ Stmt.yield :: post :=
    drop_append_cons_self pre _ Stmt.yield
  have hseg : seqRun (resolveLabel (pre ++ Stmt.yield :: (q.map Stmt.act ++ Stmt.yield :: post)))
      (q.map Stmt.act ++ Stmt.yield :: post)
      (pre.length + 1) (Cont.yieldAt pre.length)
      = some (q, SegResult.suspended (pre.length + 1 + q.length)) := by
    rw [seqRun_acts, seqRun_yield_cons]
    simp
  have e1 : invoke ⟨pre ++ Stmt.yield :: (q.map Stmt.act ++ Stmt.yield :: post), e⟩
      (Cont.yieldAt pre.length)
      = bodyRun (pre ++ Stmt.yield :: (q.map Stmt.act ++ Stmt.yield :: post))
          (pre.length + 1) (Cont.yieldAt pre.length) := by
    simp [invoke, yieldGuardDispatch, vtEntryFlag]
  rw [e1]
  unfold bodyRun
  rw [hdrop, hseg]

/-- Claim C5 is false on this code: in the thread `act 7; yield; act 8`,
an invocation entered with the second continuation (the yield's tag)
resumes after the yield, runs action 8, wraps around the body loop and
executes action 7 — a statement lexically preceding the resumption point —
within that same invocation.  Its trace is `[8, 7]`. -/
theorem c5_counterexample :
    invoke exDispatch (Cont.yieldAt 1) = some ([8, 7], Cont.yieldAt 1)
      ∧ (7 : Nat) ∈ ([8, 7] : List Nat) := by
  decide

/-- Claim C5, amended.  Dispatch itself never replays earlier code: if the
slice starting at the resumption point reaches a yield without running off
the end of the body, the invocation returns exactly that slice's actions —
a sublist of the statements from the resumption point onward, so nothing
lexically preceding the resumption point runs.  (Earlier code can only be
reached afterwards, by the loop wrapping past the end of the body.) -/
theorem c5_no_replay_amended (t : VThread α) (c : Cont) (tr : List α) (j : Nat)
    (hc : c ≠ Cont.stop)
    (h : seqRun (resolveLabel t.body) (t.body.drop (startPos c)) (startPos c) c
        = some (tr, SegResult.suspended j)) :
    invoke t c = some (tr, Cont.yieldAt j)
      ∧ ∃ k, j = startPos c + k ∧ tr = actsOf ((t.body.drop (startPos c)).take k) := by
  constructor
  · cases c with
    | stop => exact absurd rfl hc
    | begin =>
        simp only [startPos] at h
        rw [List.drop_zero] at h
        simp [invoke, bodyRun, h]
    | yieldAt i =>
        simp only [startPos] at h
        simp [invoke, yieldGuardDispatch, vtEntryFlag, bodyRun, h]
    | markAt i =>
        simp only [startPos] at h
        simp [invoke, bodyRun, h]
  · obtain ⟨k, hk, _, htr⟩ := seqRun_suspend_spec (resolveLabel t.body) h
    exact ⟨k, hk, htr⟩

theorem c5_no_replay_amended_witness :
    Cont.yieldAt 1 ≠ Cont.stop
      ∧ (invoke exTwoYields (Cont.yieldAt 1) = some ([4], Cont.yieldAt 3)
          ∧ ∃ k, 3 = startPos (Cont.yieldAt 1) + k
              ∧ [4] = actsOf ((exTwoYields.body.drop (startPos (Cont.yieldAt 1))).take k)) :=
  ⟨by decide, c5_no_replay_amended exTwoYields (Cont.yieldAt 1) [4] 3 (by decide) (by decide)⟩

end VThreads

namespace VThreads

/-- Claim C6, confirmed.  Once the continuation holds the STOPPED token,
any number of further invocations dispatch straight to the STOP label:
each one executes only the epilogue (no body statement — the trace of
every invocation is exactly the epilogue list), returns, and never writes
the continuation, which therefore stays STOPPED.  The only writers of the
continuation besides the yield suspend path are `vtInit`/`vtRestart` and
`vtSeek`, so only those can leave the STOPPED state. -/
theorem c6_stopped_idempotent (t : VThread α) (n : Nat) :
    runs t Cont.stop n = some (List.replicate n t.epi, Cont.stop) := by
  induction n with
  | zero => rfl
  | succ n ih =>
      rw [runs]
      dsimp only [invoke]
      rw [ih]
      simp [List.replicate_succ]

/-- Claim C7 is false on this code as stated: seek does set the
continuation to the mark's tag without touching anything else (first
conjunct of the counterexample, from the prior value STOPPED), but the
next invocation does not execute only code from the mark onward.  In
`act 5; yield; mark 0; act 6`, after seeking to mark 0 the next
invocation runs action 6, falls off the end of the body, wraps around the
`for (;;)` loop and executes action 5 — which lexically precedes the
mark. -/
theorem c7_counterexample :
    vtSeek exMark Cont.stop (LabelName.mark 0) = some (Cont.markAt 2)
      ∧ invoke exMark (Cont.markAt 2) = some ([6, 5], Cont.yieldAt 1)
      ∧ (5 : Nat) ∈ ([6, 5] : List Nat) := by
  decide

/-- Claim C7, amended.  For a declared mark, seek from any prior
continuation value (STOPPED included) overwrites the continuation with
the mark's tag — by its type it can change nothing else and runs no body
code.  Provided a yield point follows the mark, the next invocation then
executes exactly the actions between the mark and that yield and nothing
lexically preceding the mark; only a mark with no later yield wraps
around past the end of the body. -/
theorem c7_seek_amended (pre : List (Stmt α)) (n : Nat) (q : List α) (post : List (Stmt α))
    (e : List α) (prior : Cont)
    (hidx : markIdx? (pre ++ Stmt.mark n :: (q.map Stmt.act ++ Stmt.yield :: post)) n
        = some pre.length) :
    vtSeek ⟨pre ++ Stmt.mark n :: (q.map Stmt.act ++ Stmt.yield :: post), e⟩ prior
        (LabelName.mark n) = some (Cont.markAt pre.length)
      ∧ invoke ⟨pre ++ Stmt.mark n :: (q.map Stmt.act ++ Stmt.yield :: post), e⟩
          (Cont.markAt pre.length)
        = some (q, Cont.yieldAt (pre.length + 1 + q.length)) := by
  constructor
  · simp [vtSeek, resolveLabel, hidx]
  · have hdrop : (pre ++ Stmt.mark n :: (q.map Stmt.act ++ Stmt.yield :: post)).drop pre.length
        = Stmt.mark n :: (q.map Stmt.act ++ Stmt.yield :: post) := drop_append_self pre _
    have hseg : seqRun (resolveLabel (pre ++ Stmt.mark n :: (q.map Stmt.act ++ Stmt.yield :: post)))
        (Stmt.mark n :: (q.map Stmt.act ++ Stmt.yield :: post))
        pre.length (Cont.markAt pre.length)
        = some (q, SegResult.suspended (pre.length + 1 + q.length)) := by
      rw [seqRun_mark_cons, seqRun_acts, seqRun_yield_cons]
      simp
    have e1 : invoke ⟨pre ++ Stmt.mark n :: (q.map Stmt.act ++ Stmt.yield :: post), e⟩
        (Cont.markAt pre.length)
        = bodyRun (pre ++ Stmt.mark n :: (q.map Stmt.act ++ Stmt.yield :: post))
            pre.length (Cont.markAt pre.length) := rfl
    rw [e1]
    unfold bodyRun
    rw [hdrop, hseg]

theorem c7_seek_amended_witness :
    markIdx? ([Stmt.act 1] ++ Stmt.mark 0 :: (List.map Stmt.act [2] ++ Stmt.yield :: []))
        0 = some (List.length [Stmt.act (α := Nat) 1])
      ∧ (vtSeek ⟨[Stmt.act 1] ++ Stmt.mark 0 :: (List.map Stmt.act [2] ++ Stmt.yield :: []), []⟩
            Cont.stop (LabelName.mark 0)
          = some (Cont.markAt (List.length [Stmt.act (α := Nat) 1]))
        ∧ invoke (⟨[Stmt.act 1] ++ Stmt.mark 0 :: (List.map Stmt.act [2] ++ Stmt.yield :: []),
              []⟩ : VThread Nat) (Cont.markAt (List.length [Stmt.act (α := Nat) 1]))
          = some ([2], Cont.yieldAt (List.length [Stmt.act (α := Nat) 1] + 1
              + List.length [(2 : Nat)]))) :=
  ⟨by decide, c7_seek_amended [Stmt.act 1] 0 [2] [] [] Cont.stop (by decide)⟩

/-- Claim C8, confirmed.  Distinct yield call sites of one body record
distinct resumption tags (the tag is the per-site resume label, modelled
by the site's body position, as the C code derives the label name from the
call site's `__LINE__`); moreover the tag an invocation actually hands
back always identifies a genuine yield site of the body. -/
theorem c8_distinct_tags (t : VThread α) (i j : Nat)
    (hi : t.body[i]? = some Stmt.yield) (hj : t.body[j]? = some Stmt.yield)
    (hij : i ≠ j) :
    yieldTag i ≠ yieldTag j
      ∧ ∀ (c : Cont) (tr : List α) (k : Nat),
          invoke t c = some (tr, Cont.yieldAt k) → t.body[k]? = some Stmt.yield := by
  constructor
  · simp only [yieldTag, ne_eq, Cont.yieldAt.injEq]
    exact hij
  · intro c tr k hk
    cases c with
    | stop => simp [invoke] at hk
    | begin =>
        have h2 : bodyRun t.body 0 Cont.begin = some (tr, Cont.yieldAt k) := hk
        obtain ⟨j2, hj2, hy⟩ := bodyRun_yield_site h2
        obtain rfl : k = j2 := Cont.yieldAt.inj hj2
        exact hy
    | markAt m =>
        have h2 : bodyRun t.body m (Cont.markAt m) = some (tr, Cont.yieldAt k) := hk
        obtain ⟨j2, hj2, hy⟩ := bodyRun_yield_site h2
        obtain rfl : k = j2 := Cont.yieldAt.inj hj2
        exact hy
    | yieldAt m =>
        have h2 : bodyRun t.body (m + 1) (Cont.yieldAt m) = some (tr, Cont.yieldAt k) := by
          have e1 : invoke t (Cont.yieldAt m)
              = bodyRun t.body (m + 1) (Cont.yieldAt m) := by
            simp [invoke, yieldGuardDispatch, vtEntryFlag]
          rw [← e1]
          exact hk
        obtain ⟨j2, hj2, hy⟩ := bodyRun_yield_site h2
        obtain rfl : k = j2 := Cont.yieldAt.inj hj2
        exact hy

theorem c8_distinct_tags_witness :
    yieldTag 1 ≠ yieldTag 3
      ∧ ∀ (c : Cont) (tr : List Nat) (k : Nat),
          invoke exTwoYields c = some (tr, Cont.yieldAt k)
            → exTwoYields.body[k]? = some Stmt.yield :=
  c8_distinct_tags exTwoYields 1 3 (by decide) (by decide) (by decide)

/-- Claim C9, confirmed.  `VT_BEGIN` re-initializes `vt_flag` to 1 before
the dispatch jump; the guard inside a yield returns early exactly when
the flag is 0; therefore an invocation dispatched to the resume label of
the yield at position `i` does not take the early-return branch but
continues with the statement following that yield. -/
theorem c9_resume_skips_guard (t : VThread α) (i : Nat) :
    vtEntryFlag = true
      ∧ yieldGuardDispatch t.body i false = some ([], Cont.yieldAt i)
      ∧ invoke t (Cont.yieldAt i) = bodyRun t.body (i + 1) (Cont.yieldAt i) := by
  refine ⟨rfl, rfl, ?_⟩
  simp [invoke, yieldGuardDispatch, vtEntryFlag]

/-- Claim C10, confirmed.  Every continuation writer stays inside the
closed label set of the body: init yields the BEGIN label; seek yields the
BEGIN label, the STOP label or the label of a declared mark; and a
returning invocation leaves either the STOPPED token untouched or the
resume label of a genuine yield site of this body — never any other
value. -/
theorem c10_closed_label_set (t : VThread α) :
    ContValid t.body vtInit
      ∧ (∀ (ip : Cont) (l : LabelName) (c : Cont),
          vtSeek t ip l = some c → ContValid t.body c)
      ∧ (∀ (c : Cont) (tr : List α) (c2 : Cont),
          invoke t c = some (tr, c2) → ContValid t.body c2) := by
  refine ⟨trivial, ?_, ?_⟩
  · intro ip l c h
    cases l with
    | begin =>
        have h2 : Cont.begin = c := Option.some.inj h
        rw [← h2]
        trivial
    | stop =>
        have h2 : Cont.stop = c := Option.some.inj h
        rw [← h2]
        trivial
    | mark n =>
        simp only [vtSeek, resolveLabel, Option.map_eq_some'] at h
        obtain ⟨idx, hidx, rfl⟩ := h
        exact ⟨n, markIdx?_spec hidx⟩
  · intro c tr c2 h
    cases c with
    | stop =>
        have h2 : (t.epi, Cont.stop) = (tr, c2) := Option.some.inj h
        have h3 : Cont.stop = c2 := congrArg Prod.snd h2
        rw [← h3]
        trivial
    | begin =>
        have h2 : bodyRun t.body 0 Cont.begin = some (tr, c2) := h
        obtain ⟨j, rfl, hy⟩ := bodyRun_yield_site h2
        exact hy
    | markAt m =>
        have h2 : bodyRun t.body m (Cont.markAt m) = some (tr, c2) := h
        obtain ⟨j, rfl, hy⟩ := bodyRun_yield_site h2
        exact hy
    | yieldAt m =>
        have h2 : bodyRun t.body (m + 1) (Cont.yieldAt m) = some (tr, c2) := by
          have e1 : invoke t (Cont.yieldAt m)
              = bodyRun t.body (m + 1) (Cont.yieldAt m) := by
            simp [invoke, yieldGuardDispatch, vtEntryFlag]
          rw [← e1]
          exact h
        obtain ⟨j, rfl, hy⟩ := bodyRun_yield_site h2
        exact hy

theorem c10_closed_label_set_witness :
    ContValid exMark.body (Cont.markAt 2) :=
  (c10_closed_label_set exMark).2.1 Cont.stop (LabelName.mark 0) (Cont.markAt 2) (by decide)

end VThreads
